/-
Verification of the grunt repository's storage, slug, reconciliation and
sorting logic against its natural-language specification.

The embedding is shallow:

* `grunt/models.py` string functions (`slugify`, `unique_slug`) operate on
  Python strings, modelled here as lists of Unicode codepoints (`PyStr`).
  The character-level primitives the source delegates to — `str.lower` and
  the regex classes `\w`/`\s` — are CPython's Unicode database, external
  to this repository; they are modelled abstractly by `PyCharSem`, and the
  pipeline (`[^\w\s-]` removal, `[\s_]+` collapse, `strip("-")`) is the
  parametric `slugifySem`.  Properties that depend only on the pipeline are
  proved for every semantics satisfying documented Unicode case-mapping
  invariants.  `slugify` is the ASCII instance `slugifySem asciiSem`
  (proved so in `slugifySem_ascii`): on ASCII codepoints the Unicode tables
  coincide with the ASCII ones, so it computes the source's output exactly
  at ASCII inputs, where the evaluation claims are settled.
* `grunt/storage.py` is modelled at the level of parsed frontmatter
  documents: a `Post` is the metadata mapping plus the content string, and
  the frontmatter library's `dumps`/`load` pair is treated as a faithful
  external serializer (per the spec, collaborators such as the rendering
  framework and serialization libraries are external).  A directory is a
  list of `(stem, parse result)` pairs; `none` models a file on which
  `frontmatter.load` raises.  The filesystem used by `move_item` is a map
  from paths (component lists) to raw file contents.
* `grunt/widgets/item_list.py` cursor reconciliation and `grunt/app.py`
  sorting are modelled directly; Python's `sorted` (a stable merge sort on
  lexicographically compared key tuples) is modelled by `List.mergeSort`
  with the corresponding boolean comparator.
-/
import Mathlib

namespace Grunt

/-! ## `grunt/models.py`: slugify and unique_slug (codepoint level) -/

/-- A Python string, modelled as its list of Unicode codepoints. -/
abbrev PyStr := List Nat

/-- ASCII decimal digit codepoint. -/
def isDigitCp (c : Nat) : Bool := 48 ≤ c && c ≤ 57

/-- ASCII uppercase letter codepoint. -/
def isUpperCp (c : Nat) : Bool := 65 ≤ c && c ≤ 90

/-- ASCII lowercase letter codepoint. -/
def isLowerCp (c : Nat) : Bool := 97 ≤ c && c ≤ 122

/-- The ASCII table of the regex class `\w`: alphanumerics and `_`.  The
source's `\w` matches Unicode word characters; on ASCII codepoints the two
agree.  The Unicode class is kept abstract in `PyCharSem.isWord`, of which
this is the ASCII instance. -/
def isWordCp (c : Nat) : Bool := isDigitCp c || isUpperCp c || isLowerCp c || c == 95

/-- The ASCII table of the regex class `\s` (agreeing with the source's
Unicode `\s` on ASCII codepoints); the Unicode class is kept abstract in
`PyCharSem.isSpace`. -/
def isSpaceCp (c : Nat) : Bool := c == 32 || (9 ≤ c && c ≤ 13)

/-- The ASCII table of `str.lower` on one codepoint (agreeing with the
source's Unicode lowercasing on ASCII codepoints); the full string-level
Unicode conversion is kept abstract in `PyCharSem.lower`. -/
def pyLower (c : Nat) : Nat := if 65 ≤ c ∧ c ≤ 90 then c + 32 else c

/-- Codepoints kept by `re.sub(r"[^\w\s-]", "", slug)`. -/
def keepCp (c : Nat) : Bool := isWordCp c || isSpaceCp c || c == 45

/-- Codepoints matched by `[\s_]`, the class collapsed to hyphens. -/
def spuCp (c : Nat) : Bool := isSpaceCp c || c == 95

/-- `re.sub(r"[\s_]+", "-", slug)`: replace each maximal run of whitespace or
underscores with a single hyphen (codepoint 45). -/
def collapseRuns : List Nat → List Nat
  | [] => []
  | [c] => if spuCp c then [45] else [c]
  | c :: d :: cs =>
    if spuCp c then
      if spuCp d then collapseRuns (d :: cs) else 45 :: collapseRuns (d :: cs)
    else c :: collapseRuns (d :: cs)

/-- `slug.strip("-")`: drop leading and trailing hyphens. -/
def stripCp (l : List Nat) : List Nat :=
  ((l.dropWhile (· == 45)).reverse.dropWhile (· == 45)).reverse

/-- The codepoints of the literal `"untitled"`. -/
def untitledCp : PyStr := [117, 110, 116, 105, 116, 108, 101, 100]

/-- `models.slugify` at the ASCII instance of the character semantics:
lowercase, drop characters outside `[\w\s-]`, collapse `[\s_]+` runs to
single hyphens, strip surrounding hyphens, defaulting to `"untitled"` when
empty.  The Unicode-general embedding of the same source function is
`slugifySem`; this definition equals `slugifySem asciiSem`
(`slugifySem_ascii`) and computes the source's output exactly on ASCII
inputs. -/
def slugify (title : PyStr) : PyStr :=
  let s := stripCp (collapseRuns ((title.map pyLower).filter keepCp))
  if s = [] then untitledCp else s

/-- Decimal rendering of a natural number, as Python's `f"{n}"` produces:
the codepoints of the base-10 digits, most significant first. -/
def decimalCp (n : Nat) : PyStr :=
  if n = 0 then [48] else (Nat.digits 10 n).reverse.map (fun d => 48 + d)

/-- The candidate slug `f"{base}-{n}"` probed by `unique_slug`. -/
def slugCand (base : PyStr) (n : Nat) : PyStr := base ++ [45] ++ decimalCp n

/-- Decodes `decimalCp` (used only to establish injectivity). -/
def decimalVal (l : PyStr) : Nat := Nat.ofDigits 10 (l.reverse.map (fun c => c - 48))

/-- The `while f"{base}-{n}" in existing: n += 1` loop of `unique_slug`,
with explicit fuel.  The fuel `existing.length + 1` used below is proved
sufficient (`uniqueSlugAux_spec`): the loop always stops at the first free
suffix, exactly as the unbounded Python loop does. -/
def uniqueSlugAux (base : PyStr) (existing : List PyStr) : Nat → Nat → Nat
  | 0, n => n
  | fuel + 1, n =>
    if slugCand base n ∈ existing then uniqueSlugAux base existing fuel (n + 1) else n

/-- `models.unique_slug`: return `slugify(title)` if it does not collide,
otherwise append `-2`, `-3`, … until a free suffix is found.  The Python
`existing: set[str]` is modelled as a list queried by membership. -/
def unique_slug (title : PyStr) (existing : List PyStr) : PyStr :=
  let base := slugify title
  if base ∈ existing then
    slugCand base (uniqueSlugAux base existing (existing.length + 1) 2)
  else base

/-! ### The Unicode-general model of `slugify`

`models.slugify` delegates its character-level behaviour to CPython:
`str.lower` (Unicode default case conversion) and the `re` classes
`\w`/`\s` (Unicode word and whitespace characters).  Those tables are the
Unicode character database — an external collaborator of this repository,
like the frontmatter serializer.  They are modelled abstractly by
`PyCharSem`; the pipeline of `slugify` is then the parametric
`slugifySem`, and the claims that quantify over all inputs are settled for
every semantics satisfying invariants of the Unicode database, stated and
justified below. -/

/-- The character-level semantics `slugify` delegates to CPython for:
`lower` is the string-level `str.lower` (Unicode full case conversion —
per-codepoint mappings, possibly length-changing, plus the capital-sigma
context rule, which is why it is a function of the whole string);
`isWord`/`isSpace` are the regex classes `\w`/`\s`. -/
structure PyCharSem where
  lower : PyStr → PyStr
  isWord : Nat → Bool
  isSpace : Nat → Bool

/-- Invariant of Unicode case conversion: every codepoint occurring in the
output of `str.lower` is itself fixed by `str.lower` (lowercase mappings
produce only lowercase or uncased codepoints, whose own lowercase mapping
is the identity — this is what makes `str.lower` idempotent). -/
def LowerImageStable (sem : PyCharSem) : Prop :=
  ∀ s c, c ∈ sem.lower s → sem.lower [c] = [c]

/-- `str.lower` maps codepoints independently except for one context rule,
which rewrites capital sigma (U+03A3) — a codepoint that is not fixed as a
singleton.  Hence a string all of whose codepoints are individually fixed
by `str.lower` is fixed as a whole. -/
def LowerFixPointwise (sem : PyCharSem) : Prop :=
  ∀ s, (∀ c ∈ s, sem.lower [c] = [c]) → sem.lower s = s

/-- The ASCII facts about the specific characters `slugify` itself inserts:
the hyphen and the letters of `"untitled"` are fixed by `str.lower`, are
not whitespace, and the letters are word characters (true of the Unicode
tables, which agree with ASCII there). -/
def AsciiAnchors (sem : PyCharSem) : Prop :=
  sem.lower [45] = [45] ∧ sem.isSpace 45 = false
  ∧ ∀ c ∈ untitledCp,
      sem.lower [c] = [c] ∧ sem.isWord c = true ∧ sem.isSpace c = false

/-- Codepoints kept by `re.sub(r"[^\w\s-]", "", slug)` under a semantics. -/
def keepSem (sem : PyCharSem) (c : Nat) : Bool :=
  sem.isWord c || sem.isSpace c || c == 45

/-- Codepoints matched by `[\s_]` under a semantics. -/
def spuSem (sem : PyCharSem) (c : Nat) : Bool := sem.isSpace c || c == 95

/-- `re.sub(r"[\s_]+", "-", slug)` under an arbitrary run predicate (the
same recursion as `collapseRuns`, which is its `spuCp` instance). -/
def collapseRunsSem (spu : Nat → Bool) : List Nat → List Nat
  | [] => []
  | [c] => if spu c then [45] else [c]
  | c :: d :: cs =>
    if spu c then
      if spu d then collapseRunsSem spu (d :: cs) else 45 :: collapseRunsSem spu (d :: cs)
    else c :: collapseRunsSem spu (d :: cs)

/-- `models.slugify`, parametric in the character semantics: the faithful
embedding of the source pipeline over CPython's Unicode tables. -/
def slugifySem (sem : PyCharSem) (title : PyStr) : PyStr :=
  let s := stripCp (collapseRunsSem (spuSem sem) ((sem.lower title).filter (keepSem sem)))
  if s = [] then untitledCp else s

/-- The ASCII instance of the character semantics (the restriction of the
Unicode tables to ASCII codepoints). -/
def asciiSem : PyCharSem :=
  { lower := fun s => s.map pyLower
    isWord := isWordCp
    isSpace := isSpaceCp }

/-! ## `grunt/storage.py`: frontmatter posts, items, reading and writing

Item field strings (titles, slugs, dates, bodies) are opaque at this layer
and use Lean `String`. -/

/-- A YAML metadata value, as stored/loaded by the frontmatter library for
the fields this program writes: strings and booleans.  (PyYAML round-trips
both faithfully, quoting date-like strings.) -/
inductive MVal where
  | s (v : String)
  | b (v : Bool)
deriving DecidableEq, Repr

/-- A parsed frontmatter document: metadata keys and the free-text content. -/
structure Post where
  meta : List (String × MVal)
  content : String
deriving DecidableEq, Repr

/-- `post.get(key)` without a default: the first metadata entry for `key`. -/
def pGet (p : Post) (k : String) : Option MVal :=
  (p.meta.find? (fun kv => kv.1 == k)).map (·.2)

/-- `post.get(key, default)`. -/
def pGetD (p : Post) (k : String) (d : MVal) : MVal := (pGet p k).getD d

/-- Python truthiness of a metadata value (`if post.get(...)`, `bool(...)`). -/
def truthy : MVal → Bool
  | .s v => !(v == "")
  | .b v => v

/-- Python `str(...)` of a metadata value. -/
def pyStrOf : MVal → String
  | .s v => v
  | .b true => "True"
  | .b false => "False"

/-- The `Todo` dataclass of `grunt/models.py`. -/
structure Todo where
  title : String
  priority : String := "medium"
  due : Option String := none
  done : Bool := false
  done_at : Option String := none
  description : String := ""
  created : String := ""
  slug : String := ""
  archived : Bool := false
deriving DecidableEq, Repr

/-- The `Memo` dataclass of `grunt/models.py`. -/
structure Memo where
  title : String
  body : String := ""
  created : String := ""
  updated : String := ""
  slug : String := ""
  archived : Bool := false
deriving DecidableEq, Repr

/-- The `Item` union: a todo or a memo. -/
inductive Item where
  | todo (t : Todo)
  | memo (m : Memo)
deriving DecidableEq, Repr

/-- The `item_type` property: `"todo"` or `"memo"`. -/
def Item.item_type : Item → String
  | .todo _ => "todo"
  | .memo _ => "memo"

/-- The item's slug field. -/
def Item.slugOf : Item → String
  | .todo t => t.slug
  | .memo m => m.slug

/-- The item's archived flag. -/
def Item.archivedOf : Item → Bool
  | .todo t => t.archived
  | .memo m => m.archived

/-- Assignment `item.archived = v`. -/
def Item.setArchived : Item → Bool → Item
  | .todo t, v => .todo { t with archived := v }
  | .memo m, v => .memo { m with archived := v }

/-- `storage._parse_todo`: construct a Todo from a parsed post.  The source
stores `post.get(...)` results without conversion for `title`/`priority`/
`due`; written files always hold strings there, modelled by the `str(...)`
coercion `pyStrOf` (which is the identity on string values). -/
def _parse_todo (post : Post) (slug : String) (archived : Bool) : Todo :=
  { title := pyStrOf (pGetD post "title" (.s slug))
    priority := pyStrOf (pGetD post "priority" (.s "medium"))
    due := (pGet post "due").map pyStrOf
    done := truthy (pGetD post "done" (.b false))
    done_at :=
      match pGet post "done_at" with
      | some v => if truthy v then some (pyStrOf v) else none
      | none => none
    description := post.content
    created := pyStrOf (pGetD post "created" (.s ""))
    slug := slug
    archived := archived }

/-- `storage._parse_memo`: construct a Memo from a parsed post. -/
def _parse_memo (post : Post) (slug : String) (archived : Bool) : Memo :=
  { title := pyStrOf (pGetD post "title" (.s slug))
    body := post.content
    created := pyStrOf (pGetD post "created" (.s ""))
    updated := pyStrOf (pGetD post "updated" (.s ""))
    slug := slug
    archived := archived }

/-- `storage._read_item`: `none` when `frontmatter.load` raises (the file
argument is `none`) or when the `type` tag is neither `"todo"` nor
`"memo"`; otherwise the item of the tagged kind, with the slug taken from
the file stem. -/
def _read_item (stem : String) (file : Option Post) (archived : Bool) : Option Item :=
  match file with
  | none => none
  | some post =>
    let tag := pGetD post "type" (.s "")
    if tag = .s "todo" then some (.todo (_parse_todo post stem archived))
    else if tag = .s "memo" then some (.memo (_parse_memo post stem archived))
    else none

/-- The four item directories under a data directory.  Each directory is
the sorted `glob("*.md")` enumeration: a list of `(stem, parse result)`
pairs, where `none` stands for a file frontmatter fails to parse. -/
structure DataDir where
  todoActive : List (String × Option Post) := []
  memoActive : List (String × Option Post) := []
  todoArchive : List (String × Option Post) := []
  memoArchive : List (String × Option Post) := []

/-- The directory `data_dir / item_type` (empty for an unknown type, as the
glob of a nonexistent directory is empty). -/
def activeDir (d : DataDir) (item_type : String) : List (String × Option Post) :=
  if item_type = "todo" then d.todoActive
  else if item_type = "memo" then d.memoActive
  else []

/-- The directory `data_dir / "archive" / item_type`. -/
def archiveDir (d : DataDir) (item_type : String) : List (String × Option Post) :=
  if item_type = "todo" then d.todoArchive
  else if item_type = "memo" then d.memoArchive
  else []

/-- `storage.list_items`: read every file of the active directory for the
type, appending the archive directory's items when requested; files whose
`_read_item` is `none` are skipped. -/
def list_items (d : DataDir) (item_type : String) (include_archived : Bool := false) :
    List Item :=
  (activeDir d item_type).filterMap (fun e => _read_item e.1 e.2 false)
    ++ (if include_archived then
          (archiveDir d item_type).filterMap (fun e => _read_item e.1 e.2 true)
        else [])

/-- A filesystem path, as its list of components below the root. -/
abbrev FsPath := List String

/-- `storage._todo_path`. -/
def _todo_path (data_dir : FsPath) (slug : String) (archived : Bool) : FsPath :=
  if archived then data_dir ++ ["archive", "todo", slug ++ ".md"]
  else data_dir ++ ["todo", slug ++ ".md"]

/-- `storage._memo_path`. -/
def _memo_path (data_dir : FsPath) (slug : String) (archived : Bool) : FsPath :=
  if archived then data_dir ++ ["archive", "memo", slug ++ ".md"]
  else data_dir ++ ["memo", slug ++ ".md"]

/-- `storage.item_path`. -/
def item_path (data_dir : FsPath) : Item → FsPath
  | .todo t => _todo_path data_dir t.slug t.archived
  | .memo m => _memo_path data_dir m.slug m.archived

/-- The metadata+content document `write_item` serializes for a todo:
`due` only when truthy, `done_at` only when done and truthy. -/
def todoPost (t : Todo) : Post :=
  { meta :=
      [("type", .s "todo"), ("title", .s t.title), ("priority", .s t.priority),
       ("done", .b t.done), ("created", .s t.created)]
      ++ (match t.due with
          | some dv => if dv = "" then [] else [("due", .s dv)]
          | none => [])
      ++ (if t.done then
            match t.done_at with
            | some da => if da = "" then [] else [("done_at", .s da)]
            | none => []
          else [])
    content := t.description }

/-- The document `write_item` serializes for a memo; `updated` is always
set to today's date. -/
def memoPost (m : Memo) (today : String) : Post :=
  { meta :=
      [("type", .s "memo"), ("title", .s m.title), ("created", .s m.created),
       ("updated", .s today)]
    content := m.body }

/-- `storage.write_item` on an existing item (`is_new=False`; slug
assignment for new items is `unique_slug`, modelled above): returns the
target path, the serialized document, and the item as mutated by the call
(a memo's `updated` field is set to today). -/
def write_item (data_dir : FsPath) (item : Item) (today : String) :
    FsPath × Post × Item :=
  match item with
  | .todo t => (item_path data_dir item, todoPost t, .todo t)
  | .memo m =>
    (item_path data_dir (.memo { m with updated := today }), memoPost m today,
     .memo { m with updated := today })

/-- Reading back the document just written for an item, the way
`list_items`/`_read_item` would: the stem of `<slug>.md` is the slug, and
the archived flag comes from the directory the path selects. -/
def readBack (item : Item) (today : String) : Option Item :=
  _read_item item.slugOf (some (write_item [] item today).2.1) item.archivedOf

/-- A filesystem: raw file contents addressed by path. -/
abbrev FileSys := FsPath → Option String

/-- `storage.move_item`: the archived flag is flipped on the in-memory item
before the rename; `Path.rename` raises a missing-file error when the
source is absent (and the flag mutation is not rolled back).  Returns the
mutated item and, on success, the new filesystem with the `(src, dst)`
pair. -/
def move_item (fs : FileSys) (data_dir : FsPath) (item : Item) :
    Item × Except Unit (FileSys × FsPath × FsPath) :=
  let src := item_path data_dir item
  let item' := item.setArchived (!item.archivedOf)
  let dst := item_path data_dir item'
  match fs src with
  | none => (item', .error ())
  | some c =>
    (item', .ok (fun p => if p = dst then some c else if p = src then none else fs p,
                 src, dst))

/-! ## `grunt/widgets/item_list.py`: cursor reconciliation -/

/-- The index-selection logic of `ItemList.load_items`, over the slugs of
the freshly loaded items: `old_index` is the cursor captured before the
reload, `preserve` the slug to restore.  Returns the index the cursor is
set to (`none`: no selection, as for an empty list). -/
def load_items_target (slugs : List String) (preserve : Option String)
    (old_index : Option Nat) : Option Nat :=
  if slugs.isEmpty then none
  else
    let tgt := match preserve with
      | some key => slugs.findIdx? (fun s => s == key)
      | none => none
    match tgt, old_index with
    | some i, _ => some i
    | none, some oi => some (min oi (slugs.length - 1))
    | none, none => none

/-! ## `grunt/app.py`: sort helpers -/

/-- `PRIORITY_ORDER.get(p, 1)` with `PRIORITY_ORDER = {high: 0, medium: 1,
low: 2}`. -/
def priorityRank (p : String) : Nat :=
  if p = "high" then 0 else if p = "medium" then 1 else if p = "low" then 2 else 1

/-- `t.due or "9999-99-99"`: Python `or` takes the sentinel for a missing
or empty due date. -/
def dueKey (due : Option String) : String :=
  match due with
  | some s => if s = "" then "9999-99-99" else s
  | none => "9999-99-99"

/-- Comparison on the sort key tuple `(PRIORITY_ORDER.get(priority, 1),
due or sentinel)` used by the "priority" sort: Python compares key tuples
lexicographically. -/
def todoPriorityLe (a b : Todo) : Bool :=
  decide (priorityRank a.priority < priorityRank b.priority
    ∨ (priorityRank a.priority = priorityRank b.priority ∧ dueKey a.due ≤ dueKey b.due))

/-- Comparison on the key tuple `(due or sentinel, priority rank)` of the
"due date" sort. -/
def todoDueLe (a b : Todo) : Bool :=
  decide (dueKey a.due < dueKey b.due
    ∨ (dueKey a.due = dueKey b.due
        ∧ priorityRank a.priority ≤ priorityRank b.priority))

/-- Comparison realising `sorted(key=created, reverse=True)`: descending by
`created`, equal keys kept in input order (Python's reverse sort is stable
and does not reverse ties). -/
def todoCreatedDescLe (a b : Todo) : Bool := decide (b.created ≤ a.created)

/-- `app._sort_todos`: stable sort by the key of the requested mode
("due date", "created" descending, anything else meaning "priority"). -/
def _sort_todos (todos : List Todo) (sort_by : String) : List Todo :=
  if sort_by = "due date" then todos.mergeSort todoDueLe
  else if sort_by = "created" then todos.mergeSort todoCreatedDescLe
  else todos.mergeSort todoPriorityLe

/-! ## Theorems -/

theorem findIdx_first_of_mem {l : List String} {k : String} (h : k ∈ l) :
    ∃ i, l.findIdx? (fun s => s == k) = some i
      ∧ l[i]? = some k ∧ ∀ j, j < i → l[j]? ≠ some k := by
  induction l with
  | nil => cases h
  | cons x xs ih =>
    by_cases hx : x = k
    · exact ⟨0, by simp [hx], by simp [hx], by omega⟩
    · have hk : k ∈ xs := by
        cases h with
        | head => exact absurd rfl hx
        | tail _ h' => exact h'
      obtain ⟨i, hfind, hget, hmin⟩ := ih hk
      refine ⟨i + 1, ?_, by simpa using hget, ?_⟩
      · rw [List.findIdx?_cons]
        simp only [beq_iff_eq, hx, if_false]
        rw [List.findIdx?_succ, hfind]
        rfl
      · intro j hj
        cases j with
        | zero => simpa using fun h' => hx h'
        | succ j' =>
          have := hmin j' (by omega)
          simpa using this

theorem findIdx_none_of_not_mem {l : List String} {k : String}
    (h : ∀ s ∈ l, s ≠ k) : l.findIdx? (fun s => s == k) = none := by
  rw [List.findIdx?_eq_none_iff]
  intro x hx
  simpa using h x hx

/-- C4: `load_items` reconciliation selects, in order of preference, the
index of the first item whose slug equals the preserve key; else, for a set
previous index and a non-empty list, the previous index clamped to
`[0, len-1]` via `min`; and no selection for an empty list. -/
theorem load_items_reconciliation (slugs : List String) (preserve : Option String)
    (old_index : Option Nat) :
    (slugs = [] → load_items_target slugs preserve old_index = none)
    ∧ (∀ k, preserve = some k → k ∈ slugs →
        ∃ i, load_items_target slugs preserve old_index = some i
          ∧ slugs[i]? = some k ∧ ∀ j, j < i → slugs[j]? ≠ some k)
    ∧ (∀ p, old_index = some p → slugs ≠ [] →
        (∀ s ∈ slugs, preserve ≠ some s) →
        load_items_target slugs preserve old_index = some (min p (slugs.length - 1))) := by
  refine ⟨fun h => by simp [load_items_target, h], ?_, ?_⟩
  · intro k hk hmem
    obtain ⟨i, hfind, hget, hmin⟩ := findIdx_first_of_mem hmem
    refine ⟨i, ?_, hget, hmin⟩
    have hne : slugs.isEmpty = false := by
      cases slugs with
      | nil => cases hmem
      | cons _ _ => rfl
    simp [load_items_target, hne, hk, hfind]
  · intro p hp hne hnomatch
    have hempty : slugs.isEmpty = false := by
      cases slugs with
      | nil => exact absurd rfl hne
      | cons _ _ => rfl
    match preserve, hp with
    | none, hp => simp [load_items_target, hempty, hp]
    | some k, hp =>
      have : slugs.findIdx? (fun s => s == k) = none :=
        findIdx_none_of_not_mem fun s hs heq => hnomatch s hs (by rw [heq])
      simp [load_items_target, hempty, hp, this]

theorem load_items_reconciliation_witness :
    ∃ i, load_items_target ["a", "b"] (some "b") none = some i
      ∧ ["a", "b"][i]? = some "b" ∧ ∀ j, j < i → ["a", "b"][j]? ≠ some "b" :=
  (load_items_reconciliation ["a", "b"] (some "b") none).2.1 "b" rfl (by simp)

theorem move_item_eq_of_none (fs : FileSys) (data_dir : FsPath) (item : Item)
    (h : fs (item_path data_dir item) = none) :
    move_item fs data_dir item = (item.setArchived (!item.archivedOf), .error ()) := by
  unfold move_item
  simp only []
  rw [h]

theorem move_item_eq_of_some (fs : FileSys) (data_dir : FsPath) (item : Item) (c : String)
    (h : fs (item_path data_dir item) = some c) :
    move_item fs data_dir item =
      (item.setArchived (!item.archivedOf),
       .ok (fun p =>
              if p = item_path data_dir (item.setArchived (!item.archivedOf)) then some c
              else if p = item_path data_dir item then none else fs p,
            item_path data_dir item,
            item_path data_dir (item.setArchived (!item.archivedOf)))) := by
  unfold move_item
  simp only []
  rw [h]

theorem archivedOf_setArchived (item : Item) (v : Bool) :
    (item.setArchived v).archivedOf = v := by
  cases item <;> simp [Item.setArchived, Item.archivedOf]

theorem slugOf_setArchived (item : Item) (v : Bool) :
    (item.setArchived v).slugOf = item.slugOf := by
  cases item <;> simp [Item.setArchived, Item.slugOf]

/-- C9: `move_item` flips the in-memory archived flag before attempting the
rename, so when the source file is absent it raises a missing-file error
and the flag stays negated — the mutation is not rolled back. -/
theorem move_item_missing_source (fs : FileSys) (data_dir : FsPath) (item : Item)
    (h : fs (item_path data_dir item) = none) :
    (move_item fs data_dir item).2 = .error ()
    ∧ (move_item fs data_dir item).1.archivedOf = !item.archivedOf
    ∧ (move_item fs data_dir item).1 = item.setArchived (!item.archivedOf) := by
  rw [move_item_eq_of_none fs data_dir item h]
  exact ⟨rfl, archivedOf_setArchived item _, rfl⟩

theorem move_item_missing_source_witness :
    (move_item (fun _ => none) [] (.todo { title := "Task", slug := "task" })).2
        = .error ()
    ∧ (move_item (fun _ => none) [] (.todo { title := "Task", slug := "task" })).1.archivedOf
        = !(Item.todo { title := "Task", slug := "task" }).archivedOf
    ∧ (move_item (fun _ => none) [] (.todo { title := "Task", slug := "task" })).1
        = (Item.todo { title := "Task", slug := "task" }).setArchived
            (!(Item.todo { title := "Task", slug := "task" }).archivedOf) :=
  move_item_missing_source (fun _ => none) [] (.todo { title := "Task", slug := "task" }) rfl

theorem setArchived_setArchived (item : Item) (h : item.archivedOf = false) :
    (item.setArchived true).setArchived false = item := by
  cases item with
  | todo t =>
    simp only [Item.archivedOf] at h
    simp [Item.setArchived, ← h]
  | memo m =>
    simp only [Item.archivedOf] at h
    simp [Item.setArchived, ← h]

/-- C6: archiving an active item whose file exists and then unarchiving it
succeeds, restores the original file path and contents, returns the item to
`archived = false`, and never changes the slug. -/
theorem move_item_archive_unarchive (fs : FileSys) (data_dir : FsPath) (item : Item)
    (c : String) (hactive : item.archivedOf = false)
    (hfile : fs (item_path data_dir item) = some c) :
    ∃ fs1 src1 dst1,
      (move_item fs data_dir item).2 = .ok (fs1, src1, dst1)
      ∧ (move_item fs data_dir item).1.slugOf = item.slugOf
      ∧ ∃ fs2 src2 dst2,
          (move_item fs1 data_dir (move_item fs data_dir item).1).2 = .ok (fs2, src2, dst2)
          ∧ (move_item fs1 data_dir (move_item fs data_dir item).1).1 = item
          ∧ dst2 = item_path data_dir item
          ∧ fs2 (item_path data_dir item) = some c := by
  have hflip1 : (!item.archivedOf) = true := by rw [hactive]; rfl
  have hmove1 := move_item_eq_of_some fs data_dir item c hfile
  rw [hmove1]
  refine ⟨_, _, _, rfl, slugOf_setArchived item _, ?_⟩
  simp only
  have hitem1arch : (item.setArchived (!item.archivedOf)).archivedOf = true := by
    rw [archivedOf_setArchived, hflip1]
  have hitem2 : (item.setArchived (!item.archivedOf)).setArchived
      (!(item.setArchived (!item.archivedOf)).archivedOf) = item := by
    rw [hitem1arch]
    show (item.setArchived (!item.archivedOf)).setArchived false = item
    rw [hflip1]
    exact setArchived_setArchived item hactive
  have hfs1dst :
      (fun p =>
        if p = item_path data_dir (item.setArchived (!item.archivedOf)) then some c
        else if p = item_path data_dir item then none else fs p)
        (item_path data_dir (item.setArchived (!item.archivedOf))) = some c := by
    simp
  have hmove2 := move_item_eq_of_some
    (fun p =>
      if p = item_path data_dir (item.setArchived (!item.archivedOf)) then some c
      else if p = item_path data_dir item then none else fs p)
    data_dir (item.setArchived (!item.archivedOf)) c hfs1dst
  rw [hmove2]
  refine ⟨_, _, _, rfl, hitem2, by rw [hitem2], ?_⟩
  simp only [hitem2]
  simp

theorem move_item_archive_unarchive_witness :
    ∃ fs1 src1 dst1,
      (move_item (fun p => if p = ["todo", "task.md"] then some "body" else none) []
          (.todo { title := "Task", slug := "task" })).2 = .ok (fs1, src1, dst1)
      ∧ (move_item (fun p => if p = ["todo", "task.md"] then some "body" else none) []
          (.todo { title := "Task", slug := "task" })).1.slugOf
          = (Item.todo { title := "Task", slug := "task" }).slugOf
      ∧ ∃ fs2 src2 dst2,
          (move_item fs1 []
            (move_item (fun p => if p = ["todo", "task.md"] then some "body" else none) []
              (.todo { title := "Task", slug := "task" })).1).2 = .ok (fs2, src2, dst2)
          ∧ (move_item fs1 []
              (move_item (fun p => if p = ["todo", "task.md"] then some "body" else none) []
                (.todo { title := "Task", slug := "task" })).1).1
              = .todo { title := "Task", slug := "task" }
          ∧ dst2 = item_path [] (.todo { title := "Task", slug := "task" })
          ∧ fs2 (item_path [] (.todo { title := "Task", slug := "task" })) = some "body" :=
  move_item_archive_unarchive
    (fun p => if p = ["todo", "task.md"] then some "body" else none) []
    (.todo { title := "Task", slug := "task" }) "body" rfl (by simp [item_path, _todo_path])

theorem read_item_some_elim (stem : String) (file : Option Post) (arch : Bool) (it : Item)
    (h : _read_item stem file arch = some it) :
    ∃ post, file = some post
      ∧ ((pGetD post "type" (.s "") = .s "todo" ∧ it = .todo (_parse_todo post stem arch))
         ∨ (pGetD post "type" (.s "") = .s "memo" ∧ it = .memo (_parse_memo post stem arch))) := by
  cases file with
  | none => simp [_read_item] at h
  | some post =>
    refine ⟨post, rfl, ?_⟩
    simp only [_read_item] at h
    split at h
    · exact Or.inl ⟨by assumption, by injection h with h'; exact h'.symm⟩
    · split at h
      · exact Or.inr ⟨by assumption, by injection h with h'; exact h'.symm⟩
      · cases h

theorem read_item_slug_eq_stem (stem : String) (file : Option Post) (arch : Bool) (it : Item)
    (h : _read_item stem file arch = some it) : it.slugOf = stem := by
  obtain ⟨post, -, hcase⟩ := read_item_some_elim stem file arch it h
  rcases hcase with ⟨-, rfl⟩ | ⟨-, rfl⟩
  · simp [Item.slugOf, _parse_todo]
  · simp [Item.slugOf, _parse_memo]

/-- The directory traversal of `list_items`, as membership. -/
theorem mem_list_items (d : DataDir) (t : String) (inc : Bool) (it : Item) :
    it ∈ list_items d t inc
      ↔ (∃ e ∈ activeDir d t, _read_item e.1 e.2 false = some it)
        ∨ (inc = true ∧ ∃ e ∈ archiveDir d t, _read_item e.1 e.2 true = some it) := by
  simp only [list_items, List.mem_append, List.mem_filterMap]
  cases inc with
  | true => simp
  | false => simp

/-- C1 (amended): `list_items` returns exactly the items read from the
scanned directories; a file that fails to parse or whose recorded `type`
tag is not a recognized kind (`"todo"`/`"memo"`) is silently skipped
(`_read_item` is total and returns `none`); but the tag need not match the
requested kind — the item is returned as the kind its own tag declares. -/
theorem list_items_skips_unparsable (d : DataDir) (t : String) (inc : Bool) (it : Item) :
    (it ∈ list_items d t inc
      ↔ (∃ e ∈ activeDir d t, _read_item e.1 e.2 false = some it)
        ∨ (inc = true ∧ ∃ e ∈ archiveDir d t, _read_item e.1 e.2 true = some it))
    ∧ (∀ stem file arch, _read_item stem file arch = some it →
        ∃ post, file = some post ∧ pGetD post "type" (.s "") = .s it.item_type
          ∧ (it.item_type = "todo" ∨ it.item_type = "memo"))
    ∧ (∀ stem arch, _read_item stem (none : Option Post) arch = none)
    ∧ (∀ stem post arch, pGetD post "type" (.s "") ≠ .s "todo" →
        pGetD post "type" (.s "") ≠ .s "memo" →
        _read_item stem (some post) arch = none) := by
  refine ⟨mem_list_items d t inc it, ?_, fun stem arch => rfl, ?_⟩
  · intro stem file arch h
    obtain ⟨post, rfl, hcase⟩ := read_item_some_elim stem file arch it h
    rcases hcase with ⟨htag, rfl⟩ | ⟨htag, rfl⟩
    · exact ⟨post, rfl, by simpa [Item.item_type] using htag, Or.inl rfl⟩
    · exact ⟨post, rfl, by simpa [Item.item_type] using htag, Or.inr rfl⟩
  · intro stem post arch h1 h2
    simp only [_read_item]
    rw [if_neg h1, if_neg h2]

theorem list_items_skips_unparsable_witness :
    (Item.todo (_parse_todo { meta := [("type", MVal.s "todo")], content := "" } "x" false)
        ∈ list_items { todoActive := [("x", some { meta := [("type", MVal.s "todo")], content := "" })] } "todo" false)
    ∧ _read_item "y" (some { meta := [("type", MVal.s "note")], content := "" }) false = none := by
  constructor
  · exact (list_items_skips_unparsable
      { todoActive := [("x", some { meta := [("type", MVal.s "todo")], content := "" })] }
      "todo" false
      (.todo (_parse_todo { meta := [("type", MVal.s "todo")], content := "" } "x" false))).1.mpr
      (Or.inl ⟨("x", some { meta := [("type", MVal.s "todo")], content := "" }), by simp [activeDir], by decide⟩)
  · exact (list_items_skips_unparsable
      { todoActive := [] } "todo" false
      (.todo (_parse_todo { meta := [("type", MVal.s "todo")], content := "" } "x" false))).2.2.2
      "y" { meta := [("type", MVal.s "note")], content := "" } false (by decide) (by decide)

/-- A directory whose `todo/` folder holds a file tagged `type: memo`. -/
def mismatchedDir : DataDir :=
  { todoActive := [("x", some { meta := [("type", MVal.s "memo")], content := "" })] }

/-- C1 (counterexample): a parseable file in the `todo/` directory whose
recorded tag is `"memo"` is not skipped — `list_items(_, "todo")` returns
it as a memo, contradicting "whose recorded type tag matches the requested
kind". -/
theorem list_items_type_mismatch_cex :
    ¬ (∀ it ∈ list_items mismatchedDir "todo" false, it.item_type = "todo") := by
  intro h
  have hmem : Item.memo (_parse_memo { meta := [("type", MVal.s "memo")], content := "" } "x" false)
      ∈ list_items mismatchedDir "todo" false := by decide
  have := h _ hmem
  simp [Item.item_type] at this

/-- C10: every item produced by the listing has its slug equal to the stem
of the file it was parsed from, whatever slug the file's metadata records;
hence the slugs read from one directory (whose filenames are distinct) are
pairwise distinct. -/
theorem list_items_slug_from_stem :
    (∀ (d : DataDir) (t : String) (inc : Bool) (it : Item), it ∈ list_items d t inc →
        (∃ e ∈ activeDir d t, _read_item e.1 e.2 false = some it ∧ it.slugOf = e.1)
        ∨ (inc = true ∧ ∃ e ∈ archiveDir d t, _read_item e.1 e.2 true = some it ∧ it.slugOf = e.1))
    ∧ (∀ (entries : List (String × Option Post)) (arch : Bool),
        (entries.map Prod.fst).Nodup →
        ((entries.filterMap (fun e => _read_item e.1 e.2 arch)).map Item.slugOf).Nodup) := by
  constructor
  · intro d t inc it hmem
    rcases (mem_list_items d t inc it).mp hmem with ⟨e, he, hread⟩ | ⟨hinc, e, he, hread⟩
    · exact Or.inl ⟨e, he, hread, read_item_slug_eq_stem e.1 e.2 false it hread⟩
    · exact Or.inr ⟨hinc, e, he, hread, read_item_slug_eq_stem e.1 e.2 true it hread⟩
  · intro entries arch hnodup
    have key : ∀ (l : List (String × Option Post)),
        ((l.filterMap (fun e => _read_item e.1 e.2 arch)).map Item.slugOf)
          = (l.filter (fun e => (_read_item e.1 e.2 arch).isSome)).map Prod.fst := by
      intro l
      induction l with
      | nil => rfl
      | cons e es ih =>
        cases h : _read_item e.1 e.2 arch with
        | none => simp [List.filterMap_cons, List.filter_cons, h, ih]
        | some it =>
          simp [List.filterMap_cons, List.filter_cons, h, ih,
                read_item_slug_eq_stem e.1 e.2 arch it h]
    rw [key]
    exact hnodup.sublist ((List.filter_sublist entries).map Prod.fst)

theorem list_items_slug_from_stem_witness :
    ((([("a", some { meta := [("type", MVal.s "todo")], content := "" }),
        ("b", (none : Option Post))] : List (String × Option Post)).filterMap
        (fun e => _read_item e.1 e.2 false)).map Item.slugOf).Nodup :=
  list_items_slug_from_stem.2
    [("a", some { meta := [("type", MVal.s "todo")], content := "" }), ("b", none)]
    false (by decide)

/-- A todo whose `due` is the empty string: Python treats it as falsy, so
`write_item` omits the key and the read-back `due` is `None`. -/
def dueEmptyTodo : Todo :=
  { title := "t", due := some "", created := "2026-01-01", slug := "t" }

/-- C3 (counterexample): writing a todo whose `due` field is `""` and
reading the file back does not restore the field — `due` comes back as
`None`, so not every item round-trips with all fields equal. -/
theorem write_read_roundtrip_cex :
    readBack (.todo dueEmptyTodo) "2026-01-01" ≠ some (.todo dueEmptyTodo) := by
  decide

/-- C3 (amended): writing an item and reading the written file back (as
`list_items`/`_read_item` does) restores every field — for a memo
excepting `updated`, which is recomputed on write — provided the todo
fields Python treats as falsy and therefore omits are absent: `due` and
`done_at` are not `Some ""`, and `done_at` is `None` when the todo is not
done. -/
theorem write_read_roundtrip :
    (∀ (t : Todo) (today : String), t.due ≠ some "" → t.done_at ≠ some "" →
        (t.done = false → t.done_at = none) →
        readBack (.todo t) today = some (.todo t))
    ∧ (∀ (m : Memo) (today : String),
        readBack (.memo m) today = some (.memo { m with updated := today })) := by
  constructor
  · intro t today hdue hda hdan
    obtain ⟨title, priority, due, done, done_at, description, created, slug, archived⟩ := t
    simp only at hdue hda hdan
    cases due with
    | none =>
      cases done with
      | false =>
        have hdn : done_at = none := hdan rfl
        subst hdn
        simp [readBack, write_item, Item.slugOf, Item.archivedOf, todoPost,
              _read_item, pGetD, pGet, List.find?, _parse_todo, truthy, pyStrOf]
      | true =>
        cases done_at with
        | none =>
          simp [readBack, write_item, Item.slugOf, Item.archivedOf, todoPost,
                _read_item, pGetD, pGet, List.find?, _parse_todo, truthy, pyStrOf]
        | some da =>
          have hdane : ¬ da = "" := by simpa using hda
          simp [readBack, write_item, Item.slugOf, Item.archivedOf, todoPost,
                _read_item, pGetD, pGet, List.find?, _parse_todo, truthy, pyStrOf, hdane]
    | some dv =>
      have hdvne : ¬ dv = "" := by simpa using hdue
      cases done with
      | false =>
        have hdn : done_at = none := hdan rfl
        subst hdn
        simp [readBack, write_item, Item.slugOf, Item.archivedOf, todoPost,
              _read_item, pGetD, pGet, List.find?, _parse_todo, truthy, pyStrOf, hdvne]
      | true =>
        cases done_at with
        | none =>
          simp [readBack, write_item, Item.slugOf, Item.archivedOf, todoPost,
                _read_item, pGetD, pGet, List.find?, _parse_todo, truthy, pyStrOf, hdvne]
        | some da =>
          have hdane : ¬ da = "" := by simpa using hda
          simp [readBack, write_item, Item.slugOf, Item.archivedOf, todoPost,
                _read_item, pGetD, pGet, List.find?, _parse_todo, truthy, pyStrOf,
                hdvne, hdane]
  · intro m today
    obtain ⟨title, body, created, updated, slug, archived⟩ := m
    simp [readBack, write_item, Item.slugOf, Item.archivedOf, memoPost,
          _read_item, pGetD, pGet, List.find?, _parse_memo, truthy, pyStrOf]

theorem decimalVal_decimalCp (n : Nat) : decimalVal (decimalCp n) = n := by
  unfold decimalCp decimalVal
  by_cases h : n = 0
  · simp [h, Nat.ofDigits]
  · rw [if_neg h]
    rw [List.map_reverse]
    rw [List.map_map]
    have hid : ((fun c => c - 48) ∘ fun d => (48 : Nat) + d) = id :=
      funext fun d => by simp
    rw [hid, List.map_id, List.reverse_reverse]
    exact Nat.ofDigits_digits 10 n

theorem decimalCp_injective : Function.Injective decimalCp :=
  Function.LeftInverse.injective decimalVal_decimalCp

theorem slugCand_injective (base : PyStr) : Function.Injective (slugCand base) := by
  intro m n h
  unfold slugCand at h
  have h1 := List.append_cancel_left h
  exact decimalCp_injective h1

theorem exists_free_cand (base : PyStr) (existing : List PyStr) :
    ∃ k, k < existing.length + 1 ∧ slugCand base (2 + k) ∉ existing := by
  by_contra hall
  push_neg at hall
  have hsub : (Finset.range (existing.length + 1)).image (fun k => slugCand base (2 + k))
      ⊆ existing.toFinset := by
    intro x hx
    rw [Finset.mem_image] at hx
    obtain ⟨k, hk, rfl⟩ := hx
    rw [List.mem_toFinset]
    exact hall k (Finset.mem_range.mp hk)
  have hinj : Function.Injective (fun k => slugCand base (2 + k)) := by
    intro a b hab
    have := slugCand_injective base hab
    omega
  have hcard := Finset.card_le_card hsub
  rw [Finset.card_image_of_injective _ hinj, Finset.card_range] at hcard
  have := existing.toFinset_card_le
  omega

theorem uniqueSlugAux_spec (base : PyStr) (existing : List PyStr) (fuel : Nat) :
    ∀ n, (∃ k, k < fuel ∧ slugCand base (n + k) ∉ existing) →
      n ≤ uniqueSlugAux base existing fuel n
      ∧ slugCand base (uniqueSlugAux base existing fuel n) ∉ existing
      ∧ ∀ m, n ≤ m → m < uniqueSlugAux base existing fuel n →
          slugCand base m ∈ existing := by
  induction fuel with
  | zero => intro n h; obtain ⟨k, hk, -⟩ := h; omega
  | succ fuel ih =>
    intro n h
    by_cases hmem : slugCand base n ∈ existing
    · have hnext : ∃ k, k < fuel ∧ slugCand base (n + 1 + k) ∉ existing := by
        obtain ⟨k, hk, hfree⟩ := h
        cases k with
        | zero => simp at hfree; exact absurd hmem hfree
        | succ k' => exact ⟨k', by omega, by have : n + 1 + k' = n + (k' + 1) := by omega
                                             rw [this]; exact hfree⟩
      obtain ⟨h1, h2, h3⟩ := ih (n + 1) hnext
      have heq : uniqueSlugAux base existing (fuel + 1) n
          = if slugCand base n ∈ existing then uniqueSlugAux base existing fuel (n + 1)
            else n := rfl
      rw [heq, if_pos hmem]
      refine ⟨by omega, h2, ?_⟩
      intro m hm1 hm2
      rcases Nat.eq_or_lt_of_le hm1 with rfl | hlt
      · exact hmem
      · exact h3 m (by omega) hm2
    · have heq : uniqueSlugAux base existing (fuel + 1) n
          = if slugCand base n ∈ existing then uniqueSlugAux base existing fuel (n + 1)
            else n := rfl
      rw [heq, if_neg hmem]
      exact ⟨Nat.le_refl n, hmem, fun m hm1 hm2 => by omega⟩

/-- C5: `unique_slug` never returns a member of `existing`; it returns the
bare `slugify(title)` when that is free, and otherwise the base suffixed
with `-n` for the smallest `n ≥ 2` whose suffixed form is free, every
smaller suffix from 2 on being taken (increasing scan, no gaps). -/
theorem unique_slug_spec (title : PyStr) (existing : List PyStr) :
    unique_slug title existing ∉ existing
    ∧ (slugify title ∉ existing → unique_slug title existing = slugify title)
    ∧ (slugify title ∈ existing →
        ∃ n, 2 ≤ n ∧ unique_slug title existing = slugCand (slugify title) n
          ∧ slugCand (slugify title) n ∉ existing
          ∧ ∀ m, 2 ≤ m → m < n → slugCand (slugify title) m ∈ existing) := by
  by_cases hmem : slugify title ∈ existing
  · have hex : ∃ k, k < existing.length + 1
        ∧ slugCand (slugify title) (2 + k) ∉ existing := exists_free_cand _ existing
    have hspec := uniqueSlugAux_spec (slugify title) existing (existing.length + 1) 2
      (by obtain ⟨k, hk, hfree⟩ := hex; exact ⟨k, hk, hfree⟩)
    obtain ⟨h1, h2, h3⟩ := hspec
    have heq : unique_slug title existing
        = slugCand (slugify title)
            (uniqueSlugAux (slugify title) existing (existing.length + 1) 2) := by
      unfold unique_slug
      simp only []
      rw [if_pos hmem]
    rw [heq]
    exact ⟨h2, fun h => absurd hmem h,
           fun _ => ⟨_, h1, rfl, h2, fun m hm1 hm2 => h3 m hm1 hm2⟩⟩
  · have heq : unique_slug title existing = slugify title := by
      unfold unique_slug
      simp only []
      rw [if_neg hmem]
    rw [heq]
    exact ⟨hmem, fun _ => rfl, fun h => absurd h hmem⟩

theorem unique_slug_spec_witness :
    ∃ n, 2 ≤ n
      ∧ unique_slug [102, 111, 111] [[102, 111, 111]]
          = slugCand (slugify [102, 111, 111]) n
      ∧ slugCand (slugify [102, 111, 111]) n ∉ [[102, 111, 111]]
      ∧ ∀ m, 2 ≤ m → m < n →
          slugCand (slugify [102, 111, 111]) m ∈ [[102, 111, 111]] :=
  (unique_slug_spec [102, 111, 111] [[102, 111, 111]]).2.2 (by decide)

theorem collapseRunsSem_cons (spu : Nat → Bool) (c : Nat) (rest : List Nat) :
    (spu c = false ∧ collapseRunsSem spu (c :: rest) = c :: collapseRunsSem spu rest)
    ∨ collapseRunsSem spu (c :: rest) = 45 :: collapseRunsSem spu rest
    ∨ collapseRunsSem spu (c :: rest) = collapseRunsSem spu rest := by
  cases rest with
  | nil =>
    by_cases h : spu c = true
    · right; left
      show (if spu c then [45] else [c]) = 45 :: collapseRunsSem spu []
      rw [if_pos h]; rfl
    · left
      refine ⟨by simpa using h, ?_⟩
      show (if spu c then [45] else [c]) = c :: collapseRunsSem spu []
      rw [if_neg h]; rfl
  | cons d cs =>
    have heq : collapseRunsSem spu (c :: d :: cs)
        = if spu c then
            if spu d then collapseRunsSem spu (d :: cs)
            else 45 :: collapseRunsSem spu (d :: cs)
          else c :: collapseRunsSem spu (d :: cs) := rfl
    by_cases h : spu c = true
    · by_cases hd : spu d = true
      · right; right; rw [heq, if_pos h, if_pos hd]
      · right; left; rw [heq, if_pos h, if_neg hd]
    · left
      refine ⟨by simpa using h, ?_⟩
      rw [heq, if_neg h]

theorem mem_collapseRunsSem (spu : Nat → Bool) (l : List Nat) (c : Nat)
    (h : c ∈ collapseRunsSem spu l) : c = 45 ∨ (c ∈ l ∧ spu c = false) := by
  induction l with
  | nil => cases h
  | cons a rest ih =>
    rcases collapseRunsSem_cons spu a rest with ⟨hspu, heq⟩ | heq | heq
    · rw [heq] at h
      rcases List.mem_cons.mp h with rfl | h'
      · exact Or.inr ⟨List.mem_cons_self _ _, hspu⟩
      · rcases ih h' with h45 | ⟨hmem, hs⟩
        · exact Or.inl h45
        · exact Or.inr ⟨List.mem_cons_of_mem _ hmem, hs⟩
    · rw [heq] at h
      rcases List.mem_cons.mp h with rfl | h'
      · exact Or.inl rfl
      · rcases ih h' with h45 | ⟨hmem, hs⟩
        · exact Or.inl h45
        · exact Or.inr ⟨List.mem_cons_of_mem _ hmem, hs⟩
    · rw [heq] at h
      rcases ih h with h45 | ⟨hmem, hs⟩
      · exact Or.inl h45
      · exact Or.inr ⟨List.mem_cons_of_mem _ hmem, hs⟩

theorem collapseRunsSem_eq_self (spu : Nat → Bool) (l : List Nat)
    (h : ∀ c ∈ l, spu c = false) : collapseRunsSem spu l = l := by
  induction l with
  | nil => rfl
  | cons a rest ih =>
    have ha : spu a = false := h a (List.mem_cons_self a rest)
    have hrest := ih fun c hc => h c (List.mem_cons_of_mem a hc)
    cases rest with
    | nil =>
      show (if spu a then [45] else [a]) = [a]
      rw [ha]; rfl
    | cons d cs =>
      have heq : collapseRunsSem spu (a :: d :: cs)
          = if spu a then
              if spu d then collapseRunsSem spu (d :: cs)
              else 45 :: collapseRunsSem spu (d :: cs)
            else a :: collapseRunsSem spu (d :: cs) := rfl
      rw [heq, ha]
      simp only [Bool.false_eq_true, if_false]
      rw [hrest]

theorem collapseRunsSem_spuCp (l : List Nat) : collapseRunsSem spuCp l = collapseRuns l := by
  induction l with
  | nil => rfl
  | cons c rest ih =>
    cases rest with
    | nil => rfl
    | cons d cs =>
      have e1 : collapseRunsSem spuCp (c :: d :: cs)
          = if spuCp c then
              if spuCp d then collapseRunsSem spuCp (d :: cs)
              else 45 :: collapseRunsSem spuCp (d :: cs)
            else c :: collapseRunsSem spuCp (d :: cs) := rfl
      have e2 : collapseRuns (c :: d :: cs)
          = if spuCp c then
              if spuCp d then collapseRuns (d :: cs) else 45 :: collapseRuns (d :: cs)
            else c :: collapseRuns (d :: cs) := rfl
      rw [e1, e2, ih]

/-- `slugify` is the ASCII instance of the parametric model. -/
theorem slugifySem_ascii (x : PyStr) : slugifySem asciiSem x = slugify x := by
  unfold slugifySem slugify
  simp only []
  have hk : keepSem asciiSem = keepCp := funext fun c => rfl
  have hs : spuSem asciiSem = spuCp := funext fun c => rfl
  have hl : asciiSem.lower x = x.map pyLower := rfl
  rw [hk, hs, hl, collapseRunsSem_spuCp]

theorem stripCp_eq_rdrop (l : List Nat) :
    stripCp l = List.rdropWhile (· == 45) (l.dropWhile (· == 45)) := rfl

theorem mem_stripCp (l : List Nat) (c : Nat) (h : c ∈ stripCp l) : c ∈ l := by
  rw [stripCp_eq_rdrop] at h
  have hpre := List.rdropWhile_prefix (· == 45) (l.dropWhile (· == 45))
  exact (List.dropWhile_sublist _).mem (hpre.sublist.mem h)

theorem dropWhile_stripCp (l : List Nat) :
    (stripCp l).dropWhile (· == 45) = stripCp l := by
  have hpre := List.rdropWhile_prefix (· == 45) (l.dropWhile (· == 45))
  rw [← stripCp_eq_rdrop] at hpre
  obtain ⟨t, ht⟩ := hpre
  cases hS : stripCp l with
  | nil => rfl
  | cons s ss =>
    rw [hS] at ht
    have hdw : l.dropWhile (· == 45) = s :: (ss ++ t) := by
      rw [← ht]
      rfl
    have hhead := List.head?_dropWhile_not (· == 45) l
    rw [hdw] at hhead
    simp only [List.head?_cons] at hhead
    have hs45 : ¬ ((fun x => x == 45) s = true) := by
      simp only [Bool.not_eq_true]
      exact hhead
    exact List.dropWhile_cons_of_neg hs45

theorem rdropWhile_stripCp (l : List Nat) :
    List.rdropWhile (· == 45) (stripCp l) = stripCp l := by
  rw [stripCp_eq_rdrop]
  exact List.rdropWhile_idempotent _ _

theorem stripCp_idempotent (l : List Nat) : stripCp (stripCp l) = stripCp l := by
  rw [stripCp_eq_rdrop (stripCp l), dropWhile_stripCp]
  exact rdropWhile_stripCp l

/-- Every codepoint of a `slugifySem` result is fixed by `lower` as a
singleton, is kept by the `[^\w\s-]` filter, and is matched by neither
`\s` nor `_` — given that lower-images are stable and the ASCII anchors
hold. -/
theorem mem_slugifySem_stable (sem : PyCharSem) (h1 : LowerImageStable sem)
    (h3 : AsciiAnchors sem) (x : PyStr) :
    ∀ c ∈ slugifySem sem x,
      sem.lower [c] = [c] ∧ keepSem sem c = true ∧ spuSem sem c = false := by
  intro c hc
  unfold slugifySem at hc
  simp only [] at hc
  obtain ⟨ha45, hs45, hanch⟩ := h3
  split at hc
  · obtain ⟨hl, hw, hsp⟩ := hanch c hc
    have hne95 : c ≠ 95 := by
      simp only [untitledCp, List.mem_cons, List.not_mem_nil, or_false] at hc
      omega
    refine ⟨hl, by simp [keepSem, hw], by simp [spuSem, hsp, hne95]⟩
  · have hc2 := mem_stripCp _ c hc
    rcases mem_collapseRunsSem _ _ c hc2 with rfl | ⟨hmem, hspu⟩
    · exact ⟨ha45, by simp [keepSem], by simp [spuSem, hs45]⟩
    · rw [List.mem_filter] at hmem
      obtain ⟨hmemL, hkeep⟩ := hmem
      exact ⟨h1 x c hmemL, hkeep, hspu⟩

theorem slugifySem_fixpoint (sem : PyCharSem) (y : PyStr) (hne : y ≠ [])
    (hlower : sem.lower y = y) (hfilter : y.filter (keepSem sem) = y)
    (hcollapse : collapseRunsSem (spuSem sem) y = y) (hstrip : stripCp y = y) :
    slugifySem sem y = y := by
  unfold slugifySem
  simp only []
  rw [hlower, hfilter, hcollapse, hstrip, if_neg hne]

theorem slugifySem_ne_nil (sem : PyCharSem) (x : PyStr) : slugifySem sem x ≠ [] := by
  unfold slugifySem
  simp only []
  split
  · decide
  · assumption

/-- C7: `slugify` is idempotent on its own output, for every input string
and every character semantics satisfying the Unicode case-mapping
invariants `LowerImageStable` and `LowerFixPointwise` and the ASCII facts
`AsciiAnchors` (all true of CPython's `str.lower` and regex `\w`/`\s`):
the output consists of the hyphen and lower-fixed word characters with no
whitespace, underscores, or edge hyphens — or is the literal `"untitled"`
— and every stage of `slugify` fixes such a string. -/
theorem slugify_idempotent (sem : PyCharSem) (h1 : LowerImageStable sem)
    (h2 : LowerFixPointwise sem) (h3 : AsciiAnchors sem) (x : PyStr) :
    slugifySem sem (slugifySem sem x) = slugifySem sem x := by
  have hchars := mem_slugifySem_stable sem h1 h3 x
  have hlower : sem.lower (slugifySem sem x) = slugifySem sem x :=
    h2 _ fun c hc => (hchars c hc).1
  have hfilter : (slugifySem sem x).filter (keepSem sem) = slugifySem sem x :=
    List.filter_eq_self.mpr fun c hc => (hchars c hc).2.1
  have hcollapse : collapseRunsSem (spuSem sem) (slugifySem sem x) = slugifySem sem x :=
    collapseRunsSem_eq_self _ _ fun c hc => (hchars c hc).2.2
  have hstrip : stripCp (slugifySem sem x) = slugifySem sem x := by
    by_cases hy : stripCp (collapseRunsSem (spuSem sem)
        ((sem.lower x).filter (keepSem sem))) = []
    · have hx : slugifySem sem x = untitledCp := by
        unfold slugifySem
        simp only []
        rw [if_pos hy]
      rw [hx]
      decide
    · have hx : slugifySem sem x = stripCp (collapseRunsSem (spuSem sem)
          ((sem.lower x).filter (keepSem sem))) := by
        unfold slugifySem
        simp only []
        rw [if_neg hy]
      rw [hx]
      exact stripCp_idempotent _
  exact slugifySem_fixpoint sem _ (slugifySem_ne_nil sem x) hlower hfilter hcollapse hstrip

theorem pyLower_pyLower (c : Nat) : pyLower (pyLower c) = pyLower c := by
  unfold pyLower
  by_cases h : 65 ≤ c ∧ c ≤ 90
  · rw [if_pos h, if_neg (by omega)]
  · rw [if_neg h, if_neg h]

/-- The ASCII tables satisfy the stability invariant. -/
theorem asciiSem_lower_image_stable : LowerImageStable asciiSem := by
  intro s c hc
  have hmap : c ∈ s.map pyLower := hc
  rw [List.mem_map] at hmap
  obtain ⟨a, -, rfl⟩ := hmap
  show List.map pyLower [pyLower a] = [pyLower a]
  simp [pyLower_pyLower]

/-- The ASCII tables lower codepoint-wise, so pointwise-fixed strings are
fixed. -/
theorem asciiSem_lower_fix_pointwise : LowerFixPointwise asciiSem := by
  intro s h
  show s.map pyLower = s
  have hfix : ∀ c ∈ s, pyLower c = c := by
    intro c hc
    have h1 : List.map pyLower [c] = [c] := h c hc
    simpa using h1
  rw [List.map_congr_left hfix]
  exact List.map_id s

/-- The ASCII tables satisfy the anchors. -/
theorem asciiSem_anchors : AsciiAnchors asciiSem := by
  unfold AsciiAnchors
  refine ⟨by decide, by decide, by decide⟩

theorem slugify_idempotent_witness :
    slugifySem asciiSem (slugifySem asciiSem [66, 117, 121, 32, 109, 105, 108, 107])
      = slugifySem asciiSem [66, 117, 121, 32, 109, 105, 108, 107] :=
  slugify_idempotent asciiSem asciiSem_lower_image_stable asciiSem_lower_fix_pointwise
    asciiSem_anchors [66, 117, 121, 32, 109, 105, 108, 107]

/-- C2 (code bug, shown at the failing input): `slugify` performs no
truncation — a 60-character title yields a 60-character slug, where the
spec and the repository's own tests (`test_slugify_long_title_truncated`,
`test_slugify_custom_max_len`) require a bound of 50. -/
theorem slugify_no_truncation_at_60 :
    (slugify (List.replicate 60 97)).length = 60
    ∧ ¬ (slugify (List.replicate 60 97)).length ≤ 50 := by
  decide

theorem write_read_roundtrip_witness :
    readBack (.todo { title := "Buy milk", priority := "high", due := some "2026-03-01",
                      created := "2026-01-05", slug := "buy-milk" }) "2026-02-02"
      = some (.todo { title := "Buy milk", priority := "high", due := some "2026-03-01",
                      created := "2026-01-05", slug := "buy-milk" }) :=
  write_read_roundtrip.1
    { title := "Buy milk", priority := "high", due := some "2026-03-01",
      created := "2026-01-05", slug := "buy-milk" } "2026-02-02"
    (by decide) (by decide) (fun _ => rfl)

theorem todoPriorityLe_trans (a b c : Todo)
    (hab : todoPriorityLe a b) (hbc : todoPriorityLe b c) : todoPriorityLe a c := by
  simp only [todoPriorityLe, decide_eq_true_eq] at hab hbc ⊢
  rcases hab with h | ⟨h1, h2⟩ <;> rcases hbc with h' | ⟨h1', h2'⟩
  · exact Or.inl (by omega)
  · exact Or.inl (by omega)
  · exact Or.inl (by omega)
  · exact Or.inr ⟨by omega, le_trans h2 h2'⟩

theorem todoPriorityLe_total (a b : Todo) :
    todoPriorityLe a b || todoPriorityLe b a := by
  simp only [todoPriorityLe, Bool.or_eq_true, decide_eq_true_eq]
  rcases Nat.lt_trichotomy (priorityRank a.priority) (priorityRank b.priority)
    with h | h | h
  · exact Or.inl (Or.inl h)
  · rcases le_total (dueKey a.due) (dueKey b.due) with hd | hd
    · exact Or.inl (Or.inr ⟨h, hd⟩)
    · exact Or.inr (Or.inr ⟨h.symm, hd⟩)
  · exact Or.inr (Or.inl h)

/-- C8: sorting todos by "priority" returns a permutation of the input that
is ordered by priority rank (high=0, medium=1, low=2, unknown=1) with ties
ordered by due date ascending (a missing or empty due date becomes the
sentinel `"9999-99-99"`, sorting last), and equal-key elements keep their
original relative order (stable sort). -/
theorem sort_todos_priority_spec (l : List Todo) :
    (_sort_todos l "priority").Perm l
    ∧ (_sort_todos l "priority").Pairwise (fun a b =>
        priorityRank a.priority < priorityRank b.priority
        ∨ (priorityRank a.priority = priorityRank b.priority
            ∧ dueKey a.due ≤ dueKey b.due))
    ∧ ∀ (p : Nat) (d : String),
        (_sort_todos l "priority").filter
            (fun t => priorityRank t.priority == p && (dueKey t.due == d))
          = l.filter (fun t => priorityRank t.priority == p && (dueKey t.due == d)) := by
  have hsort : _sort_todos l "priority" = l.mergeSort todoPriorityLe := by
    unfold _sort_todos
    rw [if_neg (by decide), if_neg (by decide)]
  refine ⟨?_, ?_, ?_⟩
  · rw [hsort]
    exact List.mergeSort_perm l todoPriorityLe
  · rw [hsort]
    have := List.sorted_mergeSort todoPriorityLe_trans
      (fun a b => todoPriorityLe_total a b) l
    refine this.imp ?_
    intro a b hab
    simpa only [todoPriorityLe, decide_eq_true_eq] using hab
  · intro p d
    rw [hsort]
    set q : Todo → Bool := fun t => priorityRank t.priority == p && (dueKey t.due == d)
    have hkey : ∀ t, q t = true →
        priorityRank t.priority = p ∧ dueKey t.due = d := by
      intro t ht
      simpa [q, Bool.and_eq_true, beq_iff_eq] using ht
    have hpw : (l.filter q).Pairwise (fun a b => todoPriorityLe a b) := by
      refine List.pairwise_of_forall_mem_list ?_
      intro a ha b hb
      obtain ⟨ha1, ha2⟩ := hkey a (List.of_mem_filter ha)
      obtain ⟨hb1, hb2⟩ := hkey b (List.of_mem_filter hb)
      simp only [todoPriorityLe, decide_eq_true_eq]
      exact Or.inr ⟨by omega, by rw [ha2, hb2]⟩
    have hsub : List.Sublist (l.filter q) (l.mergeSort todoPriorityLe) :=
      List.sublist_mergeSort todoPriorityLe_trans
        (fun a b => todoPriorityLe_total a b) hpw (List.filter_sublist l)
    have hself : (l.filter q).filter q = l.filter q :=
      List.filter_eq_self.mpr fun a ha => List.of_mem_filter ha
    have hsub2 : List.Sublist (l.filter q) ((l.mergeSort todoPriorityLe).filter q) := by
      have := hsub.filter q
      rwa [hself] at this
    have hperm : List.Perm ((l.mergeSort todoPriorityLe).filter q) (l.filter q) :=
      (List.mergeSort_perm l todoPriorityLe).filter q
    exact (hsub2.eq_of_length hperm.length_eq.symm).symm

end Grunt
